import Mathlib

/-!
A shallow embedding of the core of the `hexa` terminal editor (`src/name.c`):
row storage, tab rendering, the chars→render coordinate map, scroll
reconciliation, cursor movement, edit operations and the keypress dispatch.

Machine `int` fields that can only hold non-negative values in every reachable
state of the program (`cx`, `cy`, `rx`, `numrows`, `dirty`) are modelled as
`Nat`; the scroll offsets `rowoff`/`coloff` are modelled as `Int` so that
arbitrary (also negative) prior offsets can be discussed.  Out-of-bounds row
accesses, which are undefined behaviour in the C program, are modelled by
`List.getD` with a default row; every theorem below constrains indices so that
the default is never read.  Terminal, file and clock I/O (raw mode, `getline`,
`write`, status-message text and timestamps) are external collaborators and
are not part of the embedded state.
-/

namespace Hexa

/-- `#define TAB_STOP 8` -/
def TAB_STOP : Nat := 8

/-- `#define QUIT_TIMES 1` -/
def QUIT_TIMES : Nat := 1

/-- `#define CTRL_KEY(k) ((k) & 0x1f)` -/
def ctrlKey (c : Char) : Char := Char.ofNat (c.toNat % 32)

/-- Logical keys: the `enum editorKey` values (out of `char` range) together
with plain bytes returned as-is by `editorReadKey`. -/
inductive Key where
  | char (c : Char)
  | arrowLeft
  | arrowRight
  | arrowUp
  | arrowDown
  | homeKey
  | endKey
  | pageUp
  | pageDown
  | delKey
  deriving Repr, DecidableEq

/-- `struct erow`: `chars`/`size` is the raw line, `render`/`rsize` its
tab-expanded display form (sizes are the list lengths). -/
structure Erow where
  chars : List Char
  render : List Char
  deriving Repr, DecidableEq, Inhabited

/-- `struct editorConfig` (the fields the core logic reads or writes;
`filename`, `statusmsg`, `statusmsg_time` and `orig_termios` belong to the
external collaborators). -/
structure EditorState where
  cx : Nat
  cy : Nat
  rx : Nat
  rowoff : Int
  coloff : Int
  screenrows : Nat
  screencols : Nat
  rows : List Erow
  dirty : Nat
  deriving Repr, DecidableEq, Inhabited

/-- `initEditor()`: zero cursor, offsets and rows; the window height loses two
lines for the status and message bars (`E.screenrows -= 2`). -/
def initEditor (winrows wincols : Nat) : EditorState :=
  { cx := 0, cy := 0, rx := 0, rowoff := 0, coloff := 0,
    screenrows := winrows - 2, screencols := wincols, rows := [], dirty := 0 }

/-! ### List surgery helpers

`memmove`-style insertion and deletion at an index, written with
`take`/`drop` exactly as the C code shifts the array tail. -/

/-- Insert `a` before position `n` (the `memmove` in `editorInsertRow`). -/
def listInsertAt (l : List α) (n : Nat) (a : α) : List α :=
  l.take n ++ a :: l.drop n

/-- Delete the element at position `n` (the `memmove` in `editorDelRow` /
`editorRowDelChar`). -/
def listEraseAt (l : List α) (n : Nat) : List α :=
  l.take n ++ l.drop (n + 1)

/-! ### RenderMapper -/

/-- One step of the `editorRowCxToRx` loop body: a tab advances
`rx += (TAB_STOP - 1) - (rx % TAB_STOP)` and then `rx++`; any other
character advances by one. -/
def rxStep (rx : Nat) (c : Char) : Nat :=
  if c = '\t' then rx + ((TAB_STOP - 1) - rx % TAB_STOP) + 1 else rx + 1

/-- The `editorRowCxToRx` loop folded over a character sequence. -/
def rxAfter (chars : List Char) (rx : Nat) : Nat :=
  chars.foldl rxStep rx

/-- `editorRowCxToRx(row, cx)`: walk the first `cx` raw characters. -/
def editorRowCxToRx (chars : List Char) (cx : Nat) : Nat :=
  rxAfter (chars.take cx) 0

/-- The `editorUpdateRow` fill loop: at render column `idx` a tab emits one
space and then spaces `while (idx % TAB_STOP != 0)` — together
`TAB_STOP - idx % TAB_STOP` spaces; other characters are copied. -/
def renderAux : Nat → List Char → List Char
  | _, [] => []
  | idx, c :: rest =>
    if c = '\t' then
      List.replicate (TAB_STOP - idx % TAB_STOP) ' ' ++
        renderAux (idx + (TAB_STOP - idx % TAB_STOP)) rest
    else
      c :: renderAux (idx + 1) rest

/-- The rendered form of a raw line, starting at column 0. -/
def renderOf (chars : List Char) : List Char := renderAux 0 chars

/-- `editorUpdateRow(row)`: regenerate `render`/`rsize` from `chars`. -/
def editorUpdateRow (row : Erow) : Erow :=
  { row with render := renderOf row.chars }

/-! ### RowStore operations -/

/-- `editorInsertRow(at, s, len)`: rejects `at < 0 || at > numrows`, else
shifts the tail up, installs the new row, renders it, bumps `numrows` and
`dirty`. -/
def editorInsertRow (st : EditorState) (at_ : Int) (s : List Char) : EditorState :=
  if at_ < 0 ∨ at_ > (st.rows.length : Int) then st
  else
    { st with
      rows := listInsertAt st.rows at_.toNat (editorUpdateRow { chars := s, render := [] }),
      dirty := st.dirty + 1 }

/-- `editorDelRow(at)`: rejects out-of-range `at`, else frees the row, shifts
the tail down, decrements `numrows`, bumps `dirty`. -/
def editorDelRow (st : EditorState) (at_ : Int) : EditorState :=
  if at_ < 0 ∨ at_ ≥ (st.rows.length : Int) then st
  else
    { st with rows := listEraseAt st.rows at_.toNat, dirty := st.dirty + 1 }

/-- `editorRowInsertChar(&E.row[i], at, c)`: clamps `at` to `row->size` when
out of range, splices the character in, re-renders, bumps `dirty`. -/
def editorRowInsertChar (st : EditorState) (i : Nat) (at_ : Int) (c : Char) : EditorState :=
  let row := st.rows.getD i default
  let at2 : Nat :=
    if at_ < 0 ∨ at_ > (row.chars.length : Int) then row.chars.length else at_.toNat
  { st with
    rows := st.rows.set i (editorUpdateRow { row with chars := listInsertAt row.chars at2 c }),
    dirty := st.dirty + 1 }

/-- `editorRowAppendString(&E.row[i], s, len)`: concatenate onto `chars`,
re-render, bump `dirty`. -/
def editorRowAppendString (st : EditorState) (i : Nat) (s : List Char) : EditorState :=
  let row := st.rows.getD i default
  { st with
    rows := st.rows.set i (editorUpdateRow { row with chars := row.chars ++ s }),
    dirty := st.dirty + 1 }

/-- `editorRowDelChar(&E.row[i], at)`: no-op unless `0 ≤ at < row->size`, else
remove the character, re-render, bump `dirty`. -/
def editorRowDelChar (st : EditorState) (i : Nat) (at_ : Int) : EditorState :=
  let row := st.rows.getD i default
  if at_ < 0 ∨ at_ ≥ (row.chars.length : Int) then st
  else
    { st with
      rows := st.rows.set i (editorUpdateRow { row with chars := listEraseAt row.chars at_.toNat }),
      dirty := st.dirty + 1 }

/-! ### Editor operations -/

/-- `editorInsertChar(c)`: append an empty row first when the cursor sits on
the virtual line past end of file, then insert at `(cy, cx)` and advance
`cx`. -/
def editorInsertChar (st : EditorState) (c : Char) : EditorState :=
  let st1 := if st.cy = st.rows.length
    then editorInsertRow st (st.rows.length : Int) []
    else st
  let st2 := editorRowInsertChar st1 st1.cy (st1.cx : Int) c
  { st2 with cx := st2.cx + 1 }

/-- `editorInsertNewline()`: at column 0 insert an empty row before `cy`;
otherwise insert the tail `chars[cx:]` as a new row at `cy+1` and truncate
row `cy` to its first `cx` characters; in both cases move to the start of the
next line. -/
def editorInsertNewline (st : EditorState) : EditorState :=
  let st1 :=
    if st.cx = 0 then
      editorInsertRow st (st.cy : Int) []
    else
      let row := st.rows.getD st.cy default
      let stA := editorInsertRow st ((st.cy : Int) + 1) (row.chars.drop st.cx)
      { stA with
        rows := stA.rows.set st.cy (editorUpdateRow { row with chars := row.chars.take st.cx }) }
  { st1 with cy := st1.cy + 1, cx := 0 }

/-- `editorDelChar()`: no-op on the virtual last line or at the very start of
the buffer; with `cx > 0` delete the character left of the cursor; at column 0
record the previous row's size, append this row onto it, delete this row and
move the cursor to the join point. -/
def editorDelChar (st : EditorState) : EditorState :=
  if st.cy = st.rows.length then st
  else if st.cx = 0 ∧ st.cy = 0 then st
  else
    let row := st.rows.getD st.cy default
    if st.cx > 0 then
      let st1 := editorRowDelChar st st.cy ((st.cx : Int) - 1)
      { st1 with cx := st.cx - 1 }
    else
      let prevLen := (st.rows.getD (st.cy - 1) default).chars.length
      let st1 := editorRowAppendString st (st.cy - 1) row.chars
      let st2 := editorDelRow st1 (st.cy : Int)
      { st2 with cx := prevLen, cy := st.cy - 1 }

/-! ### File serialization / load -/

/-- The `editorRowsToString` copy loop: each row's `chars` followed by a
single newline, in row order. -/
def rowsToStringAux : List Erow → List Char
  | [] => []
  | r :: rest => r.chars ++ '\n' :: rowsToStringAux rest

/-- `editorRowsToString(&len)` (the returned buffer; `len` is its length). -/
def editorRowsToString (st : EditorState) : List Char :=
  rowsToStringAux st.rows

/-- `c = '\n' || c = '\r'` — the trailing bytes `editorOpen` strips. -/
def isNlCr (c : Char) : Bool := c = '\n' || c = '\r'

/-- The `while (linelen > 0 && (line[linelen-1] == '\n' || ... == '\r'))
linelen--;` loop of `editorOpen`. -/
def stripTrailingNewlines (l : List Char) : List Char :=
  (l.reverse.dropWhile isNlCr).reverse

/-- `editorOpen(filename)` modulo the file I/O collaborator: `getline` hands
over one raw line at a time; each is stripped of trailing newline bytes and
appended via `editorInsertRow(E.numrows, ...)`; finally `E.dirty = 0`. -/
def editorOpen (st : EditorState) (fileLines : List (List Char)) : EditorState :=
  let st1 := fileLines.foldl
    (fun s line => editorInsertRow s (s.rows.length : Int) (stripTrailingNewlines line)) st
  { st1 with dirty := 0 }

/-! ### ViewportController -/

/-- The two offset checks `editorScroll` performs per dimension, in source
order: pull the offset up to the cursor if the cursor is before the window,
then push it so the window's far edge reaches the cursor if the cursor is
past it (`v` = cursor coordinate, `off` = prior offset, `k` = window size). -/
def scrollClamp (v off k : Int) : Int :=
  let off1 := if v < off then v else off
  if v ≥ off1 + k then v - k + 1 else off1

/-- `editorScroll()`: recompute `rx` from the cursor (`rx = cx` on the
virtual line past end of file), then pull each offset just far enough for
the cursor to be inside the `screenrows × screencols` window. -/
def editorScroll (st : EditorState) : EditorState :=
  let rx : Nat :=
    if st.cy < st.rows.length
    then editorRowCxToRx (st.rows.getD st.cy default).chars st.cx
    else st.cx
  { st with
    rx := rx,
    rowoff := scrollClamp st.cy st.rowoff st.screenrows,
    coloff := scrollClamp rx st.coloff st.screencols }

/-! ### KeyDecoder -/

/-- `editorReadKey()`, given the first byte read and the bytes still
available on the stream (a short read is the end of that list).  A non-escape
first byte is returned as-is; after an escape the decoder inspects up to
three more bytes and falls back to a literal escape on any short read or
unrecognized byte. -/
def editorReadKey (c : Char) (pending : List Char) : Key :=
  if c = '\x1b' then
    match pending with
    | [] => .char '\x1b'
    | [_] => .char '\x1b'
    | s0 :: s1 :: rest =>
      if s0 = '[' then
        if '0' ≤ s1 ∧ s1 ≤ '9' then
          match rest with
          | [] => .char '\x1b'
          | s2 :: _ =>
            if s2 = '~' then
              if s1 = '1' then .homeKey
              else if s1 = '3' then .delKey
              else if s1 = '4' then .endKey
              else if s1 = '5' then .pageUp
              else if s1 = '6' then .pageDown
              else if s1 = '7' then .homeKey
              else if s1 = '8' then .endKey
              else .char '\x1b'
            else .char '\x1b'
        else
          if s1 = 'A' then .arrowUp
          else if s1 = 'B' then .arrowDown
          else if s1 = 'C' then .arrowRight
          else if s1 = 'D' then .arrowLeft
          else if s1 = 'H' then .homeKey
          else if s1 = 'F' then .endKey
          else .char '\x1b'
      else if s0 = 'O' then
        if s1 = 'H' then .homeKey
        else if s1 = 'F' then .endKey
        else .char '\x1b'
      else .char '\x1b'
  else .char c

/-! ### Cursor movement and keypress dispatch -/

/-- `editorMoveCursor(key)`: the four arrow cases (with end-of-line /
start-of-line wrap) followed by the final snap of `cx` to the end of the
possibly different current line. -/
def editorMoveCursor (st : EditorState) (key : Key) : EditorState :=
  let st1 :=
    match key with
    | .arrowLeft =>
      if st.cx ≠ 0 then { st with cx := st.cx - 1 }
      else if st.cy > 0 then
        { st with cy := st.cy - 1, cx := (st.rows.getD (st.cy - 1) default).chars.length }
      else st
    | .arrowRight =>
      if st.cy ≥ st.rows.length then st
      else
        let row := st.rows.getD st.cy default
        if st.cx < row.chars.length then { st with cx := st.cx + 1 }
        else if st.cx = row.chars.length then { st with cy := st.cy + 1, cx := 0 }
        else st
    | .arrowUp => if st.cy ≠ 0 then { st with cy := st.cy - 1 } else st
    | .arrowDown => if st.cy < st.rows.length then { st with cy := st.cy + 1 } else st
    | _ => st
  let rowlen :=
    if st1.cy ≥ st1.rows.length then 0 else (st1.rows.getD st1.cy default).chars.length
  if st1.cx > rowlen then { st1 with cx := rowlen } else st1

/-- Result of one `editorProcessKeypress` call: the new state, the value of
the static `quit_times` counter on exit, whether the call terminated the
process (`exit(0)`), and whether it posted the unsaved-changes warning. -/
structure KeypressResult where
  st : EditorState
  quitTimes : Nat
  terminated : Bool
  quitWarning : Bool
  deriving Repr, DecidableEq

/-- `editorProcessKeypress()`, given the decoded key and the current value of
the static `quit_times` counter.  Every branch falls through to
`quit_times = QUIT_TIMES` except the dirty-quit warning branch, which
`return`s early with the decremented counter.  `Ctrl-S` delegates to the
external save collaborator, which never touches rows or cursor. -/
def editorProcessKeypress (st : EditorState) (quitTimes : Nat) (c : Key) : KeypressResult :=
  match c with
  | .char ch =>
    if ch = '\r' then
      ⟨editorInsertNewline st, QUIT_TIMES, false, false⟩
    else if ch = Char.ofNat 127 ∨ ch = ctrlKey 'h' then
      ⟨editorDelChar st, QUIT_TIMES, false, false⟩
    else if ch = ctrlKey 'q' then
      if st.dirty ≠ 0 ∧ quitTimes > 0 then
        ⟨st, quitTimes - 1, false, true⟩
      else
        ⟨st, quitTimes, true, false⟩
    else if ch = ctrlKey 's' then
      ⟨st, QUIT_TIMES, false, false⟩
    else if ch = ctrlKey 'l' ∨ ch = '\x1b' then
      ⟨st, QUIT_TIMES, false, false⟩
    else
      ⟨editorInsertChar st ch, QUIT_TIMES, false, false⟩
  | .homeKey => ⟨{ st with cx := 0 }, QUIT_TIMES, false, false⟩
  | .endKey =>
    if st.cy < st.rows.length then
      ⟨{ st with cx := (st.rows.getD st.cy default).chars.length }, QUIT_TIMES, false, false⟩
    else
      ⟨st, QUIT_TIMES, false, false⟩
  | .delKey =>
    ⟨editorDelChar (editorMoveCursor st .arrowRight), QUIT_TIMES, false, false⟩
  | .pageUp =>
    let st1 := { st with cy := st.rowoff.toNat }
    ⟨(fun s => editorMoveCursor s .arrowUp)^[st.screenrows] st1, QUIT_TIMES, false, false⟩
  | .pageDown =>
    let cyNew : Int := st.rowoff + st.screenrows - 1
    let cyNew := if cyNew > (st.rows.length : Int) then (st.rows.length : Int) else cyNew
    let st1 := { st with cy := cyNew.toNat }
    ⟨(fun s => editorMoveCursor s .arrowDown)^[st.screenrows] st1, QUIT_TIMES, false, false⟩
  | .arrowUp => ⟨editorMoveCursor st .arrowUp, QUIT_TIMES, false, false⟩
  | .arrowDown => ⟨editorMoveCursor st .arrowDown, QUIT_TIMES, false, false⟩
  | .arrowLeft => ⟨editorMoveCursor st .arrowLeft, QUIT_TIMES, false, false⟩
  | .arrowRight => ⟨editorMoveCursor st .arrowRight, QUIT_TIMES, false, false⟩

/-- The cursor invariant of the spec: `cy` stays on a real or the virtual
last line, and `cx` inside the current line (`0` on the virtual line). -/
def cursorInv (st : EditorState) : Prop :=
  st.cy ≤ st.rows.length ∧
  (st.cy < st.rows.length → st.cx ≤ (st.rows.getD st.cy default).chars.length) ∧
  (st.cy = st.rows.length → st.cx = 0)

instance (st : EditorState) : Decidable (cursorInv st) := by
  unfold cursorInv; infer_instance

/-- Line splitting on `'\n'` — the inverse used to state the serialize
round-trip (splitting `"a\nb\n"` gives `["a", "b", ""]`). -/
def splitOnNl : List Char → List (List Char)
  | [] => [[]]
  | c :: rest =>
    if c = '\n' then [] :: splitOnNl rest
    else
      match splitOnNl rest with
      | [] => [[c]]
      | x :: xs => (c :: x) :: xs

/-! ## Lemmas about the list surgery helpers -/

theorem listInsertAt_zero (l : List α) (a : α) : listInsertAt l 0 a = a :: l := by
  simp [listInsertAt]

theorem listInsertAt_cons_succ (x : α) (xs : List α) (n : Nat) (a : α) :
    listInsertAt (x :: xs) (n + 1) a = x :: listInsertAt xs n a := by
  simp [listInsertAt]

theorem listEraseAt_nil (n : Nat) : listEraseAt ([] : List α) n = [] := by
  simp [listEraseAt]

theorem listEraseAt_cons_zero (x : α) (xs : List α) : listEraseAt (x :: xs) 0 = xs := by
  simp [listEraseAt]

theorem listEraseAt_cons_succ (x : α) (xs : List α) (n : Nat) :
    listEraseAt (x :: xs) (n + 1) = x :: listEraseAt xs n := by
  simp [listEraseAt]

theorem listInsertAt_length (l : List α) (n : Nat) (a : α) (h : n ≤ l.length) :
    (listInsertAt l n a).length = l.length + 1 := by
  simp [listInsertAt]
  omega

theorem listEraseAt_length (l : List α) (n : Nat) (h : n < l.length) :
    (listEraseAt l n).length = l.length - 1 := by
  simp [listEraseAt]
  omega

theorem listInsertAt_getD_self (l : List α) (n : Nat) (a d : α) (h : n ≤ l.length) :
    (listInsertAt l n a).getD n d = a := by
  induction n generalizing l with
  | zero => simp [listInsertAt_zero]
  | succ n ih =>
    cases l with
    | nil => simp at h
    | cons x xs => simpa [listInsertAt_cons_succ] using ih xs (by simpa using h)

theorem listInsertAt_getD_lt (l : List α) (n i : Nat) (a d : α) (h : i < n)
    (hn : n ≤ l.length) : (listInsertAt l n a).getD i d = l.getD i d := by
  induction n generalizing l i with
  | zero => omega
  | succ n ih =>
    cases l with
    | nil => simp at hn
    | cons x xs =>
      cases i with
      | zero => simp [listInsertAt_cons_succ]
      | succ i =>
        simpa [listInsertAt_cons_succ] using ih xs i (by omega) (by simpa using hn)

theorem listInsertAt_getD_succ_ge (l : List α) (n i : Nat) (a d : α) (h : n ≤ i) :
    (listInsertAt l n a).getD (i + 1) d = l.getD i d := by
  induction n generalizing l i with
  | zero => simp [listInsertAt_zero]
  | succ n ih =>
    cases l with
    | nil => simp [listInsertAt]
    | cons x xs =>
      cases i with
      | zero => omega
      | succ i => simpa [listInsertAt_cons_succ] using ih xs i (by omega)

theorem listInsertAt_set_self (l : List α) (n : Nat) (a b : α) (hn : n ≤ l.length) :
    (listInsertAt l n a).set n b = listInsertAt l n b := by
  induction n generalizing l with
  | zero => simp [listInsertAt_zero]
  | succ n ih =>
    cases l with
    | nil => simp at hn
    | cons x xs => simp [listInsertAt_cons_succ, ih xs (by simpa using hn)]

theorem listEraseAt_listInsertAt_self (l : List α) (n : Nat) (a : α) (hn : n ≤ l.length) :
    listEraseAt (listInsertAt l n a) n = l := by
  induction n generalizing l with
  | zero => simp [listInsertAt_zero, listEraseAt_cons_zero]
  | succ n ih =>
    cases l with
    | nil => simp at hn
    | cons x xs =>
      simp [listInsertAt_cons_succ, listEraseAt_cons_succ, ih xs (by simpa using hn)]

theorem listEraseAt_listInsertAt_succ (l : List α) (n : Nat) (a : α) (h : n < l.length) :
    listEraseAt (listInsertAt l n a) (n + 1) = l.set n a := by
  induction n generalizing l with
  | zero =>
    cases l with
    | nil => simp at h
    | cons x xs => simp [listInsertAt_zero, listEraseAt_cons_succ, listEraseAt_cons_zero]
  | succ n ih =>
    cases l with
    | nil => simp at h
    | cons x xs =>
      simp [listInsertAt_cons_succ, listEraseAt_cons_succ, ih xs (by simpa using h)]

theorem set_listInsertAt_succ (l : List α) (n : Nat) (a b : α) (hn : n < l.length) :
    (listInsertAt l (n + 1) a).set n b = listInsertAt (l.set n b) (n + 1) a := by
  induction n generalizing l with
  | zero =>
    cases l with
    | nil => simp at hn
    | cons x xs => simp [listInsertAt_cons_succ, listInsertAt_zero]
  | succ n ih =>
    cases l with
    | nil => simp at hn
    | cons x xs => simp [listInsertAt_cons_succ, ih xs (by simpa using hn)]

theorem listInsertAt_length_self (l : List α) (a : α) :
    listInsertAt l l.length a = l ++ [a] := by
  simp [listInsertAt]

theorem set_getD_self (l : List α) (n : Nat) (a d : α) (h : n < l.length) :
    (l.set n a).getD n d = a := by
  induction n generalizing l with
  | zero =>
    cases l with
    | nil => simp at h
    | cons x xs => simp
  | succ n ih =>
    cases l with
    | nil => simp at h
    | cons x xs => simpa using ih xs (by simpa using h)

theorem set_getD_ne (l : List α) (n i : Nat) (a d : α) (h : i ≠ n) :
    (l.set n a).getD i d = l.getD i d := by
  induction n generalizing l i with
  | zero =>
    cases l with
    | nil => simp
    | cons x xs =>
      cases i with
      | zero => omega
      | succ i => simp
  | succ n ih =>
    cases l with
    | nil => simp
    | cons x xs =>
      cases i with
      | zero => simp
      | succ i => simpa using ih xs i (by omega)

theorem listEraseAt_getD_lt (l : List α) (n i : Nat) (d : α) (h : i < n) :
    (listEraseAt l n).getD i d = l.getD i d := by
  induction n generalizing l i with
  | zero => omega
  | succ n ih =>
    cases l with
    | nil => simp [listEraseAt_nil]
    | cons x xs =>
      cases i with
      | zero => simp [listEraseAt_cons_succ]
      | succ i => simpa [listEraseAt_cons_succ] using ih xs i (by omega)

theorem map_set_eq (l : List α) (n : Nat) (a : α) (f : α → β) (d : α)
    (h : n < l.length) (hf : f a = f (l.getD n d)) : (l.set n a).map f = l.map f := by
  induction n generalizing l with
  | zero =>
    cases l with
    | nil => simp at h
    | cons x xs => simp_all
  | succ n ih =>
    cases l with
    | nil => simp at h
    | cons x xs =>
      simp only [List.set_cons_succ, List.map_cons, List.getD_cons_succ,
        List.length_cons] at *
      rw [ih xs (by omega) hf]

/-! ## RenderMapper lemmas -/

theorem rxAfter_cons (c : Char) (rest : List Char) (rx : Nat) :
    rxAfter (c :: rest) rx = rxAfter rest (rxStep rx c) := rfl

theorem rxAfter_append_one (l : List Char) (c : Char) (rx : Nat) :
    rxAfter (l ++ [c]) rx = rxStep (rxAfter l rx) c := by
  simp [rxAfter, List.foldl_append]

/-- The render loop and the `editorRowCxToRx` loop advance the running
column by exactly the same amount. -/
theorem renderAux_length (l : List Char) :
    ∀ idx, (renderAux idx l).length + idx = rxAfter l idx := by
  induction l with
  | nil => intro idx; simp [renderAux, rxAfter]
  | cons c rest ih =>
    intro idx
    by_cases hc : c = '\t'
    · have h1 := ih (idx + (TAB_STOP - idx % TAB_STOP))
      have h2 : idx + ((TAB_STOP - 1) - idx % TAB_STOP) + 1
          = idx + (TAB_STOP - idx % TAB_STOP) := by simp [TAB_STOP]; omega
      simp only [renderAux, hc, if_pos, rxAfter_cons, rxStep, if_true,
        List.length_append, List.length_replicate, h2]
      omega
    · have h1 := ih (idx + 1)
      simp only [renderAux, hc, if_false, rxAfter_cons, rxStep, if_neg hc,
        List.length_cons]
      omega

theorem editorRowCxToRx_eq_render_length (chars : List Char) (cx : Nat) :
    editorRowCxToRx chars cx = (renderOf (chars.take cx)).length := by
  have := renderAux_length (chars.take cx) 0
  simp only [Nat.add_zero] at this
  simp [editorRowCxToRx, renderOf, this]

theorem take_succ_getD (l : List α) (j : Nat) (d : α) (h : j < l.length) :
    l.take (j + 1) = l.take j ++ [l.getD j d] := by
  induction j generalizing l with
  | zero =>
    cases l with
    | nil => simp at h
    | cons x xs => simp
  | succ j ih =>
    cases l with
    | nil => simp at h
    | cons x xs => simp [ih xs (by simpa using h)]

theorem editorRowCxToRx_succ (chars : List Char) (j : Nat) (d : Char)
    (h : j < chars.length) :
    editorRowCxToRx chars (j + 1) = rxStep (editorRowCxToRx chars j) (chars.getD j d) := by
  simp [editorRowCxToRx, take_succ_getD chars j d h, rxAfter_append_one]

/-- C3: `editorUpdateRow` expands every tab of the raw line into
`TAB_STOP - idx % TAB_STOP ≥ 1` spaces, landing the next character on a
render column that is a multiple of `TAB_STOP = 8`, and copies every other
character as a single column; `editorRowCxToRx` applies the same rule to
every prefix (its value is the rendered length of the raw prefix, growing
by exactly 1 per ordinary character and to the next multiple of 8 past a
tab); the row with raw `"ab\tc"` renders to `"ab      c"`, length 9. -/
theorem editorUpdateRow_tab_expansion :
    (∀ row : Erow, (editorUpdateRow row).render = renderOf row.chars) ∧
    (∀ idx rest, renderAux idx ('\t' :: rest)
        = List.replicate (TAB_STOP - idx % TAB_STOP) ' '
          ++ renderAux (idx + (TAB_STOP - idx % TAB_STOP)) rest) ∧
    (∀ idx, 1 ≤ TAB_STOP - idx % TAB_STOP
        ∧ (idx + (TAB_STOP - idx % TAB_STOP)) % TAB_STOP = 0) ∧
    (∀ idx c rest, c ≠ '\t' → renderAux idx (c :: rest) = c :: renderAux (idx + 1) rest) ∧
    (∀ chars cx, editorRowCxToRx chars cx = (renderOf (chars.take cx)).length) ∧
    (∀ chars j, j < List.length chars → chars.getD j ' ' = '\t' →
        editorRowCxToRx chars (j + 1) % TAB_STOP = 0
          ∧ editorRowCxToRx chars j < editorRowCxToRx chars (j + 1)) ∧
    (∀ chars j, j < List.length chars → chars.getD j ' ' ≠ '\t' →
        editorRowCxToRx chars (j + 1) = editorRowCxToRx chars j + 1) ∧
    (editorUpdateRow { chars := ['a', 'b', '\t', 'c'], render := [] }).render
        = "ab      c".toList ∧
    ((editorUpdateRow { chars := ['a', 'b', '\t', 'c'], render := [] }).render).length = 9 := by
  refine ⟨fun row => rfl, fun idx rest => by simp [renderAux],
    fun idx => by simp [TAB_STOP]; omega,
    fun idx c rest hc => by simp [renderAux, hc],
    editorRowCxToRx_eq_render_length, ?_, ?_, by decide, by decide⟩
  · intro chars j hj htab
    rw [editorRowCxToRx_succ chars j ' ' hj, htab]
    simp only [rxStep, if_pos, TAB_STOP, reduceIte]
    omega
  · intro chars j hj htab
    rw [editorRowCxToRx_succ chars j ' ' hj]
    simp only [rxStep, if_neg htab]

/-- Witness for C3 at a concrete input: the tab of `"ab\tc"` sits at raw
index 2, the rendered prefix lengths around it are 2 and 8. -/
theorem editorUpdateRow_tab_expansion_witness :
    editorRowCxToRx ['a', 'b', '\t', 'c'] 3 % TAB_STOP = 0
      ∧ editorRowCxToRx ['a', 'b', '\t', 'c'] 2 < editorRowCxToRx ['a', 'b', '\t', 'c'] 3
      ∧ editorRowCxToRx ['a', 'b', '\t', 'c'] 4 = editorRowCxToRx ['a', 'b', '\t', 'c'] 3 + 1 := by
  have h := editorUpdateRow_tab_expansion
  refine ⟨(h.2.2.2.2.2.1 _ 2 (by decide) (by decide)).1,
    (h.2.2.2.2.2.1 _ 2 (by decide) (by decide)).2,
    h.2.2.2.2.2.2.1 _ 3 (by decide) (by decide)⟩

/-! ## ViewportController: C1 -/

theorem scrollClamp_spec (v off k : Int) (hk : 1 ≤ k) :
    scrollClamp v off k ≤ v ∧ v ≤ scrollClamp v off k + k - 1
      ∧ scrollClamp v (scrollClamp v off k) k = scrollClamp v off k := by
  unfold scrollClamp
  dsimp only
  split_ifs <;> omega

theorem editorStateExt (s t : EditorState) (h1 : s.cx = t.cx) (h2 : s.cy = t.cy)
    (h3 : s.rx = t.rx) (h4 : s.rowoff = t.rowoff) (h5 : s.coloff = t.coloff)
    (h6 : s.screenrows = t.screenrows) (h7 : s.screencols = t.screencols)
    (h8 : s.rows = t.rows) (h9 : s.dirty = t.dirty) : s = t := by
  cases s; cases t; simp_all

/-- C1: after `editorScroll`, with positive viewport dimensions, the offsets
satisfy `rowoff ≤ cy ≤ rowoff + screenrows - 1` and
`coloff ≤ rx ≤ coloff + screencols - 1` (`rx` recomputed from `cy`/`cx`, or
equal to `cx` on the virtual line past end of file), for arbitrarily large or
small (negative) prior offsets; a second call with the cursor unchanged
changes nothing. -/
theorem editorScroll_contains_cursor (st : EditorState)
    (hr : 1 ≤ st.screenrows) (hc : 1 ≤ st.screencols) :
    (editorScroll st).rowoff ≤ ((editorScroll st).cy : Int)
      ∧ ((editorScroll st).cy : Int) ≤ (editorScroll st).rowoff + (editorScroll st).screenrows - 1
      ∧ (editorScroll st).coloff ≤ ((editorScroll st).rx : Int)
      ∧ ((editorScroll st).rx : Int) ≤ (editorScroll st).coloff + (editorScroll st).screencols - 1
      ∧ (editorScroll st).cy = st.cy
      ∧ (editorScroll st).rx
          = (if st.cy < st.rows.length
             then editorRowCxToRx (st.rows.getD st.cy default).chars st.cx
             else st.cx)
      ∧ editorScroll (editorScroll st) = editorScroll st := by
  have hkr : (1 : Int) ≤ (st.screenrows : Int) := by exact_mod_cast hr
  have hkc : (1 : Int) ≤ (st.screencols : Int) := by exact_mod_cast hc
  have hrow := scrollClamp_spec (st.cy : Int) st.rowoff (st.screenrows : Int) hkr
  have hcol := scrollClamp_spec
    ((if st.cy < st.rows.length
      then editorRowCxToRx (st.rows.getD st.cy default).chars st.cx
      else st.cx : Nat) : Int) st.coloff (st.screencols : Int) hkc
  refine ⟨hrow.1, ?_, hcol.1, ?_, rfl, rfl, ?_⟩
  · exact hrow.2.1
  · exact hcol.2.1
  · exact editorStateExt _ _ rfl rfl rfl hrow.2.2 hcol.2.2 rfl rfl rfl rfl

/-- Witness for C1 at a concrete state (a 1-line-high, 4-column window). -/
theorem editorScroll_contains_cursor_witness :
    1 ≤ (initEditor 3 4).screenrows ∧ 1 ≤ (initEditor 3 4).screencols
      ∧ editorScroll (editorScroll (initEditor 3 4)) = editorScroll (initEditor 3 4) :=
  ⟨by decide, by decide,
    (editorScroll_contains_cursor (initEditor 3 4) (by decide) (by decide)).2.2.2.2.2.2⟩

/-! ## Frame property of `editorDelChar`: C9 -/

/-- C9: `editorDelChar` is a complete no-op — rows, cursor and `dirty` all
unchanged — when the cursor is on the virtual line past end of file
(`cy = rows.length`) or at the very start of the buffer (`cx = 0 ∧ cy = 0`). -/
theorem editorDelChar_noop (st : EditorState)
    (h : st.cy = st.rows.length ∨ (st.cx = 0 ∧ st.cy = 0)) :
    editorDelChar st = st := by
  unfold editorDelChar
  rcases h with h | h
  · simp [h]
  · simp [h.1, h.2]

/-- Witness for C9: backspace at the start of an empty buffer does nothing. -/
theorem editorDelChar_noop_witness :
    editorDelChar (initEditor 10 10) = initEditor 10 10 :=
  editorDelChar_noop (initEditor 10 10) (Or.inr ⟨rfl, rfl⟩)

/-! ## RowStore out-of-range handling: C4 (corrected) -/

/-- Counterexample to C4 as stated: the claim says an out-of-range `at` is
clamped into `[0, rows.length]` and a row is always inserted (row count
incremented, dirty set).  But `editorInsertRow` starts with
`if (at < 0 || at > E.numrows) return;` — the request `at = 1` on an empty
buffer is ignored: the row count stays 0 and `dirty` stays 0. -/
theorem editorInsertRow_counterexample :
    (editorInsertRow (initEditor 10 10) 1 ['a']).rows.length = 0
      ∧ (editorInsertRow (initEditor 10 10) 1 ['a']).dirty = 0 := by
  constructor <;> rfl

/-- C4 (amended): `editorInsertRow` inserts the new row and increments the
row count and `dirty` for every `at` inside `[0, rows.length]`; an
out-of-range `at` (negative or past the row count) is ignored — the state is
returned unchanged, never a fatal error. -/
theorem editorInsertRow_amended (st : EditorState) (at_ : Int) (s : List Char) :
    (0 ≤ at_ → at_ ≤ (st.rows.length : Int) →
      (editorInsertRow st at_ s).rows.length = st.rows.length + 1
        ∧ (editorInsertRow st at_ s).rows.getD at_.toNat default
            = editorUpdateRow { chars := s, render := [] }
        ∧ (editorInsertRow st at_ s).dirty = st.dirty + 1)
      ∧ ((at_ < 0 ∨ at_ > (st.rows.length : Int)) → editorInsertRow st at_ s = st) := by
  constructor
  · intro h0 h1
    have hguard : ¬(at_ < 0 ∨ at_ > (st.rows.length : Int)) := by omega
    have htn : at_.toNat ≤ st.rows.length := by omega
    unfold editorInsertRow
    rw [if_neg hguard]
    exact ⟨listInsertAt_length _ _ _ htn, listInsertAt_getD_self _ _ _ _ htn, rfl⟩
  · intro h
    unfold editorInsertRow
    rw [if_pos h]

/-- Witness for C4 (amended): inserting at 0 of the empty buffer adds the
row; inserting at 1 is ignored. -/
theorem editorInsertRow_amended_witness :
    (editorInsertRow (initEditor 10 10) 0 ['a']).rows.length = 1
      ∧ (editorInsertRow (initEditor 10 10) 0 ['a']).dirty = 1
      ∧ editorInsertRow (initEditor 10 10) 1 ['a'] = initEditor 10 10 := by
  have h := editorInsertRow_amended (initEditor 10 10) 0 ['a']
  have h2 := editorInsertRow_amended (initEditor 10 10) 1 ['a']
  exact ⟨(h.1 (by decide) (by decide)).1, (h.1 (by decide) (by decide)).2.2,
    h2.2 (by decide)⟩

/-! ## Quit confirmation: C5 -/

/-- C5: with the pending-quit counter armed (`quit_times = QUIT_TIMES`), a
`Ctrl-Q` on a dirty buffer does not terminate: it decrements the counter,
posts the unsaved-changes warning and leaves the state unchanged (the early
`return` skips the counter reset); a second `Ctrl-Q` while still dirty (the
counter now 0) terminates; every non-quit key resets the counter to
`QUIT_TIMES`; and `Ctrl-Q` on a clean buffer terminates at once. -/
theorem quit_confirmation (st : EditorState) (qt : Nat) :
    (st.dirty ≠ 0 →
      editorProcessKeypress st QUIT_TIMES (.char (ctrlKey 'q'))
        = ⟨st, QUIT_TIMES - 1, false, true⟩)
      ∧ (st.dirty ≠ 0 →
          (editorProcessKeypress st 0 (.char (ctrlKey 'q'))).terminated = true)
      ∧ (∀ k, k ≠ .char (ctrlKey 'q') →
          (editorProcessKeypress st qt k).quitTimes = QUIT_TIMES)
      ∧ (st.dirty = 0 →
          (editorProcessKeypress st qt (.char (ctrlKey 'q'))).terminated = true) := by
  have hq1 : (ctrlKey 'q' : Char) ≠ '\r' := by decide
  have hq2 : ¬(ctrlKey 'q' = Char.ofNat 127 ∨ ctrlKey 'q' = ctrlKey 'h') := by decide
  refine ⟨?_, ?_, ?_, ?_⟩
  · intro hd
    simp [editorProcessKeypress, hq1, hq2, hd, QUIT_TIMES]
  · intro hd
    simp [editorProcessKeypress, hq1, hq2, hd]
  · intro k hk
    cases k with
    | char ch =>
      by_cases hc : ch = ctrlKey 'q'
      · exact absurd (by rw [hc]) hk
      · simp only [editorProcessKeypress]
        split_ifs <;> rfl
    | homeKey => rfl
    | endKey => simp only [editorProcessKeypress]; split_ifs <;> rfl
    | delKey => rfl
    | pageUp => rfl
    | pageDown => rfl
    | arrowUp => rfl
    | arrowDown => rfl
    | arrowLeft => rfl
    | arrowRight => rfl
  · intro hd
    simp [editorProcessKeypress, hq1, hq2, hd]

/-- Witness for C5: a dirty one-row buffer warns on the first `Ctrl-Q`,
terminates on the second, and a clean buffer terminates at once. -/
theorem quit_confirmation_witness :
    (editorProcessKeypress { initEditor 10 10 with dirty := 3 } QUIT_TIMES
        (.char (ctrlKey 'q'))
      = ⟨{ initEditor 10 10 with dirty := 3 }, QUIT_TIMES - 1, false, true⟩)
      ∧ (editorProcessKeypress { initEditor 10 10 with dirty := 3 } 0
          (.char (ctrlKey 'q'))).terminated = true
      ∧ (editorProcessKeypress { initEditor 10 10 with dirty := 3 } 0
          Key.arrowUp).quitTimes = QUIT_TIMES
      ∧ (editorProcessKeypress (initEditor 10 10) QUIT_TIMES
          (.char (ctrlKey 'q'))).terminated = true := by
  have h := quit_confirmation { initEditor 10 10 with dirty := 3 } 0
  have h2 := quit_confirmation (initEditor 10 10) QUIT_TIMES
  exact ⟨h.1 (by decide), h.2.1 (by decide), h.2.2.1 Key.arrowUp (by decide),
    h2.2.2.2 rfl⟩

/-! ## KeyDecoder: C6 -/

/-- C6: after an escape byte the decoder maps `[A/B/C/D/H/F` to
up/down/right/left/home/end, `OH/OF` to home/end, and `[<digit>~` per the
fixed table (1,7 → home; 3 → delete; 4,8 → end; 5 → page-up; 6 → page-down);
every short read (no more bytes available) and every byte outside these
tables yields the literal escape key — the decoder never signals an error;
a non-escape first byte is returned as itself. -/
theorem editorReadKey_decode :
    (∀ rest, editorReadKey '\x1b' ('[' :: 'A' :: rest) = .arrowUp)
    ∧ (∀ rest, editorReadKey '\x1b' ('[' :: 'B' :: rest) = .arrowDown)
    ∧ (∀ rest, editorReadKey '\x1b' ('[' :: 'C' :: rest) = .arrowRight)
    ∧ (∀ rest, editorReadKey '\x1b' ('[' :: 'D' :: rest) = .arrowLeft)
    ∧ (∀ rest, editorReadKey '\x1b' ('[' :: 'H' :: rest) = .homeKey)
    ∧ (∀ rest, editorReadKey '\x1b' ('[' :: 'F' :: rest) = .endKey)
    ∧ (∀ rest, editorReadKey '\x1b' ('O' :: 'H' :: rest) = .homeKey)
    ∧ (∀ rest, editorReadKey '\x1b' ('O' :: 'F' :: rest) = .endKey)
    ∧ (∀ rest, editorReadKey '\x1b' ('[' :: '1' :: '~' :: rest) = .homeKey)
    ∧ (∀ rest, editorReadKey '\x1b' ('[' :: '3' :: '~' :: rest) = .delKey)
    ∧ (∀ rest, editorReadKey '\x1b' ('[' :: '4' :: '~' :: rest) = .endKey)
    ∧ (∀ rest, editorReadKey '\x1b' ('[' :: '5' :: '~' :: rest) = .pageUp)
    ∧ (∀ rest, editorReadKey '\x1b' ('[' :: '6' :: '~' :: rest) = .pageDown)
    ∧ (∀ rest, editorReadKey '\x1b' ('[' :: '7' :: '~' :: rest) = .homeKey)
    ∧ (∀ rest, editorReadKey '\x1b' ('[' :: '8' :: '~' :: rest) = .endKey)
    ∧ editorReadKey '\x1b' [] = .char '\x1b'
    ∧ (∀ b, editorReadKey '\x1b' [b] = .char '\x1b')
    ∧ (∀ d, '0' ≤ d → d ≤ '9' → editorReadKey '\x1b' ['[', d] = .char '\x1b')
    ∧ (∀ s0 s1 rest, s0 ≠ '[' → s0 ≠ 'O' →
        editorReadKey '\x1b' (s0 :: s1 :: rest) = .char '\x1b')
    ∧ (∀ s1 rest, ¬('0' ≤ s1 ∧ s1 ≤ '9') → s1 ≠ 'A' → s1 ≠ 'B' → s1 ≠ 'C' →
        s1 ≠ 'D' → s1 ≠ 'H' → s1 ≠ 'F' →
        editorReadKey '\x1b' ('[' :: s1 :: rest) = .char '\x1b')
    ∧ (∀ d s2 rest, '0' ≤ d → d ≤ '9' → s2 ≠ '~' →
        editorReadKey '\x1b' ('[' :: d :: s2 :: rest) = .char '\x1b')
    ∧ (∀ d rest, '0' ≤ d → d ≤ '9' → d ≠ '1' → d ≠ '3' → d ≠ '4' → d ≠ '5' →
        d ≠ '6' → d ≠ '7' → d ≠ '8' →
        editorReadKey '\x1b' ('[' :: d :: '~' :: rest) = .char '\x1b')
    ∧ (∀ s1 rest, s1 ≠ 'H' → s1 ≠ 'F' →
        editorReadKey '\x1b' ('O' :: s1 :: rest) = .char '\x1b')
    ∧ (∀ c rest, c ≠ '\x1b' → editorReadKey c rest = .char c) := by
  refine ⟨fun rest => rfl, fun rest => rfl, fun rest => rfl, fun rest => rfl,
    fun rest => rfl, fun rest => rfl, fun rest => rfl, fun rest => rfl,
    fun rest => rfl, fun rest => rfl, fun rest => rfl, fun rest => rfl,
    fun rest => rfl, fun rest => rfl, fun rest => rfl, rfl, fun b => rfl,
    ?_, ?_, ?_, ?_, ?_, ?_, ?_⟩
  · intro d h0 h9
    simp [editorReadKey, h0, h9]
  · intro s0 s1 rest h0 h1
    simp [editorReadKey, h0, h1]
  · intro s1 rest hd hA hB hC hD hH hF
    simp [editorReadKey, hd, hA, hB, hC, hD, hH, hF]
  · intro d s2 rest h0 h9 hs
    simp [editorReadKey, h0, h9, hs]
  · intro d rest h0 h9 h1 h3 h4 h5 h6 h7 h8
    simp [editorReadKey, h0, h9, h1, h3, h4, h5, h6, h7, h8]
  · intro s1 rest hH hF
    simp [editorReadKey, hH, hF]
  · intro c rest hc
    simp [editorReadKey, hc]

/-- Witness for C6 at concrete malformed sequences: `ESC [ 2 ~`,
`ESC X Y`, a short read `ESC [ 5`, and a plain byte. -/
theorem editorReadKey_decode_witness :
    editorReadKey '\x1b' ['[', '2', '~'] = Key.char '\x1b'
      ∧ editorReadKey '\x1b' ['X', 'Y'] = Key.char '\x1b'
      ∧ editorReadKey '\x1b' ['[', '5'] = Key.char '\x1b'
      ∧ editorReadKey 'q' [] = Key.char 'q' := by
  have h := editorReadKey_decode
  exact ⟨h.2.2.2.2.2.2.2.2.2.2.2.2.2.2.2.2.2.2.2.2.2.1 '2' [] (by decide) (by decide)
      (by decide) (by decide) (by decide) (by decide) (by decide) (by decide) (by decide),
    h.2.2.2.2.2.2.2.2.2.2.2.2.2.2.2.2.2.2.1 'X' 'Y' [] (by decide) (by decide),
    h.2.2.2.2.2.2.2.2.2.2.2.2.2.2.2.2.2.1 '5' (by decide) (by decide),
    h.2.2.2.2.2.2.2.2.2.2.2.2.2.2.2.2.2.2.2.2.2.2.2 'q' [] (by decide)⟩

/-! ## Serialization and load round-trip: C8 -/

theorem rowsToStringAux_eq_join (rs : List Erow) :
    rowsToStringAux rs = (rs.map (fun r => r.chars ++ ['\n'])).flatten := by
  induction rs with
  | nil => rfl
  | cons r rest ih => simp [rowsToStringAux, ih]

theorem rowsToStringAux_length (rs : List Erow) :
    (rowsToStringAux rs).length = (rs.map (fun r => r.chars.length + 1)).sum := by
  induction rs with
  | nil => rfl
  | cons r rest ih => simp [rowsToStringAux, ih]; omega

theorem stripTrailingNewlines_noop (l : List Char)
    (h : ∀ c ∈ l, c ≠ '\n' ∧ c ≠ '\r') : stripTrailingNewlines l = l := by
  unfold stripTrailingNewlines
  cases hrev : l.reverse with
  | nil => simp_all
  | cons c rest =>
    have hc : c ∈ l := by
      have : c ∈ l.reverse := by rw [hrev]; exact List.mem_cons_self c rest
      simpa using this
    have : isNlCr c = false := by
      simp [isNlCr]
      exact ⟨(h c hc).1, (h c hc).2⟩
    rw [List.dropWhile_cons, this]
    simp [← hrev]

theorem editorOpen_rows (st : EditorState) (fileLines : List (List Char)) :
    (editorOpen st fileLines).rows
      = st.rows ++ fileLines.map
          (fun l => editorUpdateRow { chars := stripTrailingNewlines l, render := [] }) := by
  suffices h : ∀ (ls : List (List Char)) (s : EditorState),
      (ls.foldl (fun s line =>
        editorInsertRow s (s.rows.length : Int) (stripTrailingNewlines line)) s).rows
        = s.rows ++ ls.map
            (fun l => editorUpdateRow { chars := stripTrailingNewlines l, render := [] }) by
    simpa [editorOpen] using h fileLines st
  intro ls
  induction ls with
  | nil => intro s; simp
  | cons l rest ih =>
    intro s
    rw [List.foldl_cons, ih]
    have hins : (editorInsertRow s (s.rows.length : Int) (stripTrailingNewlines l)).rows
        = s.rows ++ [editorUpdateRow { chars := stripTrailingNewlines l, render := [] }] := by
      unfold editorInsertRow
      rw [if_neg (by omega)]
      simpa using listInsertAt_length_self s.rows _
    rw [hins]
    simp

theorem splitOnNl_line (l t : List Char) (h : '\n' ∉ l) :
    splitOnNl (l ++ '\n' :: t) = l :: splitOnNl t := by
  induction l with
  | nil => simp [splitOnNl]
  | cons c rest ih =>
    have hc : c ≠ '\n' := by intro hc; exact h (hc ▸ List.mem_cons_self c rest)
    have hrest : '\n' ∉ rest := fun hm => h (List.mem_cons_of_mem c hm)
    simp only [List.cons_append, splitOnNl, if_neg hc, List.append_eq, ih hrest]

theorem splitOnNl_join (lines : List (List Char)) (h : ∀ l ∈ lines, '\n' ∉ l) :
    splitOnNl ((lines.map (fun l => l ++ ['\n'])).flatten) = lines ++ [[]] := by
  induction lines with
  | nil => rfl
  | cons l rest ih =>
    have hl : '\n' ∉ l := h l (List.mem_cons_self l rest)
    have hrest : ∀ x ∈ rest, '\n' ∉ x := fun x hx => h x (List.mem_cons_of_mem l hx)
    simp only [List.map_cons, List.flatten_cons, List.append_assoc, List.singleton_append,
      splitOnNl_line l _ hl, List.nil_append, ih hrest, List.cons_append]

/-- C8: `editorRowsToString` is exactly the concatenation of every row's raw
content with a single `'\n'` appended per row in row order (its length is the
`totlen` the function reports); consequently, serializing a buffer freshly
loaded by `editorOpen` from newline-free lines and re-splitting the result on
`'\n'` reproduces the original lines (with the single trailing empty segment
coming from the final newline). -/
theorem editorRowsToString_roundtrip :
    (∀ st : EditorState,
      editorRowsToString st = (st.rows.map (fun r => r.chars ++ ['\n'])).flatten
        ∧ (editorRowsToString st).length
            = (st.rows.map (fun r => r.chars.length + 1)).sum)
    ∧ (∀ (st : EditorState) (lines : List (List Char)), st.rows = [] →
        (∀ l ∈ lines, ∀ c ∈ l, c ≠ '\n' ∧ c ≠ '\r') →
        (editorOpen st lines).rows.map Erow.chars = lines
          ∧ splitOnNl (editorRowsToString (editorOpen st lines)) = lines ++ [[]]) := by
  refine ⟨fun st => ⟨rowsToStringAux_eq_join st.rows, rowsToStringAux_length st.rows⟩, ?_⟩
  intro st lines h0 h
  have hstrip : ∀ l ∈ lines, stripTrailingNewlines l = l := fun l hl =>
    stripTrailingNewlines_noop l (h l hl)
  have hrows : (editorOpen st lines).rows
      = lines.map (fun l => editorUpdateRow { chars := l, render := [] }) := by
    rw [editorOpen_rows, h0, List.nil_append]
    exact List.map_congr_left fun l hl => by rw [hstrip l hl]
  constructor
  · rw [hrows]
    simp only [editorUpdateRow, List.map_map]
    have hid : (Erow.chars ∘ fun l => ({ chars := l, render := renderOf l } : Erow)) = id :=
      funext fun l => rfl
    rw [hid, List.map_id]
  · rw [editorRowsToString, rowsToStringAux_eq_join, hrows]
    have hmm : ((lines.map (fun l => editorUpdateRow { chars := l, render := [] })).map
        (fun r => r.chars ++ ['\n'])) = lines.map (fun l => l ++ ['\n']) := by
      simp [editorUpdateRow]
    rw [hmm]
    exact splitOnNl_join lines fun l hl hc => ((h l hl) '\n' hc).1 rfl

/-- Witness for C8: loading the two lines `"ab"`, `"c"` serializes to
`"ab\nc\n"`, which splits back into `["ab", "c", ""]`. -/
theorem editorRowsToString_roundtrip_witness :
    (editorOpen (initEditor 10 10) [['a', 'b'], ['c']]).rows.map Erow.chars
        = [['a', 'b'], ['c']]
      ∧ splitOnNl (editorRowsToString (editorOpen (initEditor 10 10) [['a', 'b'], ['c']]))
        = [['a', 'b'], ['c'], []] := by
  have h := (editorRowsToString_roundtrip.2 (initEditor 10 10) [['a', 'b'], ['c']]
    rfl (by decide))
  exact ⟨h.1, h.2⟩

/-! ## Newline split / backspace join round-trip: C7 -/

/-- C7: for a cursor on a real row (`cy < rows.length`) at any valid column
(`cx ≤ rows[cy].raw.length`), splitting with `editorInsertNewline` and then
joining with `editorDelChar` (backspace at column 0 of row `cy+1`, where the
split leaves the cursor) restores the original rows' raw contents, the row
count, and the cursor position. -/
theorem split_join_restores (st : EditorState) (hcy : st.cy < st.rows.length)
    (hcx : st.cx ≤ (st.rows.getD st.cy default).chars.length) :
    (editorDelChar (editorInsertNewline st)).rows.map Erow.chars = st.rows.map Erow.chars
      ∧ (editorDelChar (editorInsertNewline st)).rows.length = st.rows.length
      ∧ (editorDelChar (editorInsertNewline st)).cy = st.cy
      ∧ (editorDelChar (editorInsertNewline st)).cx = st.cx := by
  have hg1 : ¬((st.cy : Int) < 0 ∨ (st.cy : Int) > (st.rows.length : Int)) := by omega
  have hcyle : st.cy ≤ st.rows.length := le_of_lt hcy
  by_cases hx : st.cx = 0
  · have h1 : editorInsertNewline st
        = { st with
            rows := listInsertAt st.rows st.cy (({ chars := [], render := renderOf [] } : Erow)),
            dirty := st.dirty + 1, cy := st.cy + 1, cx := 0 } := by
      simp only [editorInsertNewline, editorInsertRow, editorUpdateRow, hx, hg1,
        if_neg, if_pos, Int.toNat_natCast, reduceIte]
    have hlen1 : ∀ X : Erow, (listInsertAt st.rows st.cy X).length = st.rows.length + 1 :=
      fun X => listInsertAt_length _ _ _ hcyle
    have hne1 : ¬(st.cy + 1 = st.rows.length + 1) := by omega
    have hgetTop : (listInsertAt st.rows st.cy
        (({ chars := [], render := renderOf [] } : Erow))).getD (st.cy + 1) default
        = st.rows.getD st.cy default :=
      listInsertAt_getD_succ_ge _ _ _ _ _ le_rfl
    have hgetIns : (listInsertAt st.rows st.cy
        (({ chars := [], render := renderOf [] } : Erow))).getD st.cy default
        = ({ chars := [], render := renderOf [] } : Erow) :=
      listInsertAt_getD_self _ _ _ _ hcyle
    have hg2 : ¬(((st.cy + 1 : Nat) : Int) < 0
        ∨ ((st.cy + 1 : Nat) : Int) ≥ ((st.rows.length + 1 : Nat) : Int)) := by omega
    have hset : ∀ X : Erow, (listInsertAt st.rows st.cy
        (({ chars := [], render := renderOf [] } : Erow))).set st.cy X
        = listInsertAt st.rows st.cy X :=
      fun X => listInsertAt_set_self _ _ _ _ hcyle
    have hera : ∀ X : Erow, listEraseAt (listInsertAt st.rows st.cy X) (st.cy + 1)
        = st.rows.set st.cy X :=
      fun X => listEraseAt_listInsertAt_succ _ _ _ hcy
    have h0 : ¬(st.cy + 1 = 0) := by omega
    have hlt0 : ¬((0 : Nat) > 0) := by omega
    have h2 : editorDelChar (editorInsertNewline st)
        = { st with
            rows := st.rows.set st.cy
              { chars := (st.rows.getD st.cy default).chars,
                render := renderOf (st.rows.getD st.cy default).chars },
            dirty := st.dirty + 1 + 1 + 1, cy := st.cy, cx := 0 } := by
      rw [h1]
      simp only [editorDelChar, editorRowAppendString, editorDelRow, editorUpdateRow,
        hlen1, hne1, hgetTop, hgetIns, hg2, h0, hlt0, hset, hera, true_and,
        List.nil_append, List.length_nil, if_neg, if_pos, reduceIte, List.length_set,
        Int.toNat_natCast, Nat.add_sub_cancel]
    rw [h2]
    refine ⟨?_, ?_, rfl, by rw [hx]⟩
    · exact map_set_eq _ _ _ _ default hcy rfl
    · simp
  · -- st.cx ≠ 0: the split inserts the tail at cy+1 and truncates row cy
    have hgA : ¬((st.cy : Int) + 1 < 0 ∨ (st.cy : Int) + 1 > (st.rows.length : Int)) := by
      omega
    have htnA : ((st.cy : Int) + 1).toNat = st.cy + 1 := by omega
    have hcomm : ∀ X Y : Erow,
        (listInsertAt st.rows (st.cy + 1) X).set st.cy Y
          = listInsertAt (st.rows.set st.cy Y) (st.cy + 1) X :=
      fun X Y => set_listInsertAt_succ _ _ _ _ hcy
    have h1 : editorInsertNewline st
        = { st with
            rows := listInsertAt
              (st.rows.set st.cy
                { chars := (st.rows.getD st.cy default).chars.take st.cx,
                  render := renderOf ((st.rows.getD st.cy default).chars.take st.cx) })
              (st.cy + 1)
              { chars := (st.rows.getD st.cy default).chars.drop st.cx,
                render := renderOf ((st.rows.getD st.cy default).chars.drop st.cx) },
            dirty := st.dirty + 1, cy := st.cy + 1, cx := 0 } := by
      simp only [editorInsertNewline, editorInsertRow, editorUpdateRow, hx, hgA, htnA,
        hcomm, if_neg, if_pos, reduceIte]
    have hlenB : ∀ X Y : Erow,
        (listInsertAt (st.rows.set st.cy Y) (st.cy + 1) X).length = st.rows.length + 1 :=
      fun X Y => by
        rw [listInsertAt_length _ _ _ (by simpa using hcy), List.length_set]
    have hgetE1 : ∀ X Y : Erow,
        (listInsertAt (st.rows.set st.cy Y) (st.cy + 1) X).getD (st.cy + 1) default = X :=
      fun X Y => listInsertAt_getD_self _ _ _ _ (by simpa using hcy)
    have hgetMid : ∀ X Y : Erow,
        (listInsertAt (st.rows.set st.cy Y) (st.cy + 1) X).getD st.cy default = Y :=
      fun X Y => by
        rw [listInsertAt_getD_lt _ _ _ _ _ (Nat.lt_succ_self _) (by simpa using hcy)]
        exact set_getD_self _ _ _ _ hcy
    have hcommB : ∀ X Y Z : Erow,
        (listInsertAt (st.rows.set st.cy Z) (st.cy + 1) X).set st.cy Y
          = listInsertAt (st.rows.set st.cy Y) (st.cy + 1) X :=
      fun X Y Z => by
        rw [set_listInsertAt_succ _ _ _ _ (by simpa using hcy), List.set_set]
    have heraB : ∀ X Y : Erow,
        listEraseAt (listInsertAt (st.rows.set st.cy Y) (st.cy + 1) X) (st.cy + 1)
          = st.rows.set st.cy Y :=
      fun X Y => listEraseAt_listInsertAt_self _ _ _ (by simpa using hcy)
    have hne1 : ¬(st.cy + 1 = st.rows.length + 1) := by omega
    have h0 : ¬(st.cy + 1 = 0) := by omega
    have hlt0 : ¬((0 : Nat) > 0) := by omega
    have hg2 : ¬(((st.cy + 1 : Nat) : Int) < 0
        ∨ ((st.cy + 1 : Nat) : Int) ≥ ((st.rows.length + 1 : Nat) : Int)) := by omega
    have hmin : ((st.rows.getD st.cy default).chars.take st.cx).length = st.cx := by
      rw [List.length_take]
      omega
    have h2 : editorDelChar (editorInsertNewline st)
        = { st with
            rows := st.rows.set st.cy
              { chars := (st.rows.getD st.cy default).chars,
                render := renderOf (st.rows.getD st.cy default).chars },
            dirty := st.dirty + 1 + 1 + 1, cy := st.cy, cx := st.cx } := by
      rw [h1]
      simp only [editorDelChar, editorRowAppendString, editorDelRow, editorUpdateRow,
        hlenB, hne1, h0, hlt0, hgetE1, hgetMid, hcommB, heraB, hg2, true_and,
        List.take_append_drop, if_neg, if_pos, reduceIte, List.length_set, hmin,
        Int.toNat_natCast, Nat.add_sub_cancel]
    rw [h2]
    exact ⟨map_set_eq _ _ _ _ default hcy rfl, by simp, rfl, rfl⟩

/-- Witness for C7: splitting `"abcd"` at `(0, 2)` and backspacing rejoins it. -/
theorem split_join_restores_witness :
    (editorDelChar (editorInsertNewline
        { initEditor 10 10 with rows := [{ chars := ['a', 'b', 'c', 'd'], render := [] }], cy := 0, cx := 2 })).rows.map
      Erow.chars = [['a', 'b', 'c', 'd']]
      ∧ (editorDelChar (editorInsertNewline
        { initEditor 10 10 with rows := [{ chars := ['a', 'b', 'c', 'd'], render := [] }], cy := 0, cx := 2 })).cx
        = 2 := by
  have h := split_join_restores
    { initEditor 10 10 with rows := [{ chars := ['a', 'b', 'c', 'd'], render := [] }], cy := 0, cx := 2 }
    (by decide) (by decide)
  exact ⟨h.1, h.2.2.2⟩

/-! ## Delete-key dispatch: C10 -/

/-- C10: the Delete key is dispatched as a right-arrow move followed by
backspace.  With `cx < rows[cy].raw.length` it removes the character under
the cursor and leaves the cursor where it was; with `cx = rows[cy].raw.length`
and a following row present, it joins that following row onto the current
row (cursor staying at the join point). -/
theorem delete_key_dispatch (st : EditorState) (qt : Nat) :
    (st.cy < st.rows.length →
      st.cx < (st.rows.getD st.cy default).chars.length →
      (editorProcessKeypress st qt .delKey).st
        = { st with
            rows := st.rows.set st.cy
              { chars := listEraseAt (st.rows.getD st.cy default).chars st.cx,
                render := renderOf (listEraseAt (st.rows.getD st.cy default).chars st.cx) },
            dirty := st.dirty + 1 })
    ∧ (st.cy + 1 < st.rows.length →
        st.cx = (st.rows.getD st.cy default).chars.length →
        (editorProcessKeypress st qt .delKey).st
          = { st with
              rows := listEraseAt
                (st.rows.set st.cy
                  { chars := (st.rows.getD st.cy default).chars
                      ++ (st.rows.getD (st.cy + 1) default).chars,
                    render := renderOf ((st.rows.getD st.cy default).chars
                      ++ (st.rows.getD (st.cy + 1) default).chars) })
                (st.cy + 1),
              dirty := st.dirty + 1 + 1,
              cx := (st.rows.getD st.cy default).chars.length }) := by
  constructor
  · intro hcy hcx
    have hge : ¬(st.cy ≥ st.rows.length) := by omega
    have hclamp : ¬(st.cx + 1 > (st.rows.getD st.cy default).chars.length) := by omega
    have hmv : editorMoveCursor st .arrowRight = { st with cx := st.cx + 1 } := by
      simp only [editorMoveCursor, hge, hcx, hclamp, if_neg, if_pos, reduceIte]
    have hne : ¬(st.cy = st.rows.length) := by omega
    have hg : ¬(((st.cx + 1 : Nat) : Int) - 1 < 0
        ∨ ((st.cx + 1 : Nat) : Int) - 1
          ≥ ((st.rows.getD st.cy default).chars.length : Int)) := by omega
    have htn : (((st.cx + 1 : Nat) : Int) - 1).toNat = st.cx := by omega
    have hpos : 0 < st.cx + 1 := by omega
    have hAnd : ¬(st.cx + 1 = 0 ∧ st.cy = 0) := by omega
    show editorDelChar (editorMoveCursor st .arrowRight) = _
    rw [hmv]
    simp only [editorDelChar, editorRowDelChar, editorUpdateRow, hne, hg, htn, hpos,
      hAnd, if_neg, if_pos, reduceIte, gt_iff_lt, Nat.add_sub_cancel]
  · intro hcy hcx
    have hge : ¬(st.cy ≥ st.rows.length) := by omega
    have hnlt : ¬(st.cx < (st.rows.getD st.cy default).chars.length) := by omega
    have hclamp : ¬((0 : Nat) > (st.rows.getD (st.cy + 1) default).chars.length) := by
      omega
    have hge2 : ¬(st.cy + 1 ≥ st.rows.length) := by omega
    have hmv : editorMoveCursor st .arrowRight = { st with cy := st.cy + 1, cx := 0 } := by
      simp only [editorMoveCursor, hge, hge2, hcx, hclamp, lt_self_iff_false,
        gt_iff_lt, Nat.not_lt_zero, if_neg, if_pos, reduceIte]
    have hne : ¬(st.cy + 1 = st.rows.length) := by omega
    have h0 : ¬(st.cy + 1 = 0) := by omega
    have hlt0 : ¬((0 : Nat) > 0) := by omega
    have hg : ¬(((st.cy + 1 : Nat) : Int) < 0
        ∨ ((st.cy + 1 : Nat) : Int) ≥ (st.rows.length : Int)) := by omega
    show editorDelChar (editorMoveCursor st .arrowRight) = _
    rw [hmv]
    simp only [editorDelChar, editorRowAppendString, editorDelRow, editorUpdateRow,
      hne, h0, hlt0, hg, true_and, if_neg, if_pos, reduceIte, List.length_set,
      Int.toNat_natCast, Nat.add_sub_cancel]

/-- Witness for C10 on `["abc", "xy"]`: Delete at `(0,1)` removes `'b'`
keeping the cursor, Delete at `(0,3)` joins the rows. -/
theorem delete_key_dispatch_witness :
    (editorProcessKeypress { initEditor 10 10 with rows := [{ chars := ['a', 'b', 'c'], render := [] }, { chars := ['x', 'y'], render := [] }], cy := 0, cx := 1 } 1 .delKey).st.rows.map Erow.chars
        = [['a', 'c'], ['x', 'y']]
      ∧ (editorProcessKeypress { initEditor 10 10 with rows := [{ chars := ['a', 'b', 'c'], render := [] }, { chars := ['x', 'y'], render := [] }], cy := 0, cx := 1 } 1 .delKey).st.cx = 1
      ∧ (editorProcessKeypress { initEditor 10 10 with rows := [{ chars := ['a', 'b', 'c'], render := [] }, { chars := ['x', 'y'], render := [] }], cy := 0, cx := 3 } 1 .delKey).st.rows.map Erow.chars
        = [['a', 'b', 'c', 'x', 'y']] := by
  have h1 := (delete_key_dispatch { initEditor 10 10 with rows := [{ chars := ['a', 'b', 'c'], render := [] }, { chars := ['x', 'y'], render := [] }], cy := 0, cx := 1 } 1).1
    (by decide) (by decide)
  have h2 := (delete_key_dispatch { initEditor 10 10 with rows := [{ chars := ['a', 'b', 'c'], render := [] }, { chars := ['x', 'y'], render := [] }], cy := 0, cx := 3 } 1).2
    (by decide) (by decide)
  rw [h1, h2]
  refine ⟨by decide, rfl, by decide⟩

/-! ## Cursor invariant preservation: C2 -/

theorem default_erow : (default : Erow) = { chars := [], render := [] } := rfl

theorem editorMoveCursor_rows (st : EditorState) (k : Key) :
    (editorMoveCursor st k).rows = st.rows := by
  cases k <;> (simp only [editorMoveCursor]; split_ifs <;> rfl)

theorem editorMoveCursor_inv (st : EditorState) (k : Key) (h : st.cy ≤ st.rows.length) :
    cursorInv (editorMoveCursor st k) := by
  cases k <;>
    (simp only [editorMoveCursor, cursorInv]
     split_ifs <;> refine ⟨?_, fun hlt => ?_, fun heq => ?_⟩ <;> simp_all [default_erow] <;>
       omega)

theorem iterate_moveCursor_inv (k : Key) (n : Nat) :
    ∀ st : EditorState, st.cy ≤ st.rows.length →
      cursorInv ((fun s => editorMoveCursor s k)^[n + 1] st) := by
  induction n with
  | zero => intro st h; simpa using editorMoveCursor_inv st k h
  | succ n ih =>
    intro st h
    rw [Function.iterate_succ_apply]
    exact ih (editorMoveCursor st k) (editorMoveCursor_inv st k h).1

theorem editorInsertRow_cy (st : EditorState) (at_ : Int) (s : List Char) :
    (editorInsertRow st at_ s).cy = st.cy := by
  unfold editorInsertRow; split_ifs <;> rfl

theorem editorInsertNewline_cy (st : EditorState) :
    (editorInsertNewline st).cy = st.cy + 1 := by
  unfold editorInsertNewline
  split_ifs <;> (dsimp only; rw [editorInsertRow_cy])

theorem editorInsertNewline_length (st : EditorState) (h : cursorInv st) :
    (editorInsertNewline st).rows.length = st.rows.length + 1 := by
  obtain ⟨h1, h2, h3⟩ := h
  unfold editorInsertNewline editorInsertRow
  by_cases hx : st.cx = 0
  · have hg : ¬((st.cy : Int) < 0 ∨ (st.cy : Int) > (st.rows.length : Int)) := by omega
    simp only [hx, hg, if_neg, if_pos, reduceIte]
    exact listInsertAt_length _ _ _ (by omega)
  · have hcy : st.cy < st.rows.length := by
      rcases Nat.lt_or_ge st.cy st.rows.length with hlt | hge
      · exact hlt
      · exact absurd (h3 (by omega)) hx
    have hg : ¬((st.cy : Int) + 1 < 0 ∨ (st.cy : Int) + 1 > (st.rows.length : Int)) := by
      omega
    have htn : ((st.cy : Int) + 1).toNat = st.cy + 1 := by omega
    simp only [hx, hg, htn, if_neg, if_pos, reduceIte, List.length_set]
    exact listInsertAt_length _ _ _ (by omega)

theorem editorInsertNewline_inv (st : EditorState) (h : cursorInv st) :
    cursorInv (editorInsertNewline st) := by
  have h1 := h.1
  have hlen := editorInsertNewline_length st h
  have hcy := editorInsertNewline_cy st
  have hcx : (editorInsertNewline st).cx = 0 := rfl
  exact ⟨by omega, fun _ => by rw [hcx]; exact Nat.zero_le _, fun _ => hcx⟩

theorem editorInsertChar_inv (st : EditorState) (c : Char) (h : cursorInv st) :
    cursorInv (editorInsertChar st c) := by
  obtain ⟨h1, h2, h3⟩ := h
  by_cases hcy : st.cy = st.rows.length
  · have hcx0 : st.cx = 0 := h3 hcy
    have hg : ¬((st.rows.length : Int) < 0
        ∨ (st.rows.length : Int) > (st.rows.length : Int)) := by omega
    have hgetD : (listInsertAt st.rows st.rows.length
        ({ chars := [], render := renderOf [] } : Erow)).getD st.rows.length default
        = { chars := [], render := renderOf [] } :=
      listInsertAt_getD_self _ _ _ _ le_rfl
    have hclamp : ¬(((0 : Nat) : Int) < 0
        ∨ ((0 : Nat) : Int) > ((([] : List Char).length : Nat) : Int)) := by omega
    have hsetself : ∀ X : Erow, (listInsertAt st.rows st.rows.length
        ({ chars := [], render := renderOf [] } : Erow)).set st.rows.length X
        = listInsertAt st.rows st.rows.length X :=
      fun X => listInsertAt_set_self _ _ _ _ le_rfl
    have hchar : editorInsertChar st c
        = { st with
            rows := listInsertAt st.rows st.rows.length
              { chars := [c], render := renderOf [c] },
            dirty := st.dirty + 1 + 1, cx := 1 } := by
      simp only [editorInsertChar, editorInsertRow, editorRowInsertChar, editorUpdateRow,
        hcy, hcx0, hg, hgetD, hclamp, hsetself, listInsertAt_zero, if_neg, if_pos,
        reduceIte, Int.toNat_natCast, List.length_nil, ite_self, zero_add]
    rw [hchar]
    refine ⟨?_, fun hlt => ?_, fun heq => ?_⟩
    · have := listInsertAt_length st.rows st.rows.length
        ({ chars := [c], render := renderOf [c] } : Erow) le_rfl
      simp only [this]
      omega
    · have := listInsertAt_getD_self st.rows st.rows.length
        ({ chars := [c], render := renderOf [c] } : Erow) default le_rfl
      simp only [hcy, this]
      simp
    · have := listInsertAt_length st.rows st.rows.length
        ({ chars := [c], render := renderOf [c] } : Erow) le_rfl
      rw [hcy] at heq ⊢
      simp only [this] at heq
      omega
  · have hlt : st.cy < st.rows.length := by omega
    have hcx : st.cx ≤ (st.rows.getD st.cy default).chars.length := h2 hlt
    have hclamp : ¬((st.cx : Int) < 0
        ∨ (st.cx : Int) > ((st.rows.getD st.cy default).chars.length : Int)) := by omega
    have hchar : editorInsertChar st c
        = { st with
            rows := st.rows.set st.cy
              { chars := listInsertAt (st.rows.getD st.cy default).chars st.cx c,
                render := renderOf
                  (listInsertAt (st.rows.getD st.cy default).chars st.cx c) },
            dirty := st.dirty + 1, cx := st.cx + 1 } := by
      simp only [editorInsertChar, editorRowInsertChar, editorUpdateRow, hcy, hclamp,
        if_neg, if_pos, reduceIte, Int.toNat_natCast]
    rw [hchar]
    refine ⟨?_, fun hl => ?_, fun heq => ?_⟩
    · simp only [List.length_set]; omega
    · have := set_getD_self st.rows st.cy
        ({ chars := listInsertAt (st.rows.getD st.cy default).chars st.cx c,
           render := renderOf (listInsertAt (st.rows.getD st.cy default).chars st.cx c) }
          : Erow) default hlt
      simp only [this]
      have hil := listInsertAt_length (st.rows.getD st.cy default).chars st.cx c hcx
      simp only [hil]
      omega
    · simp only [List.length_set] at heq
      omega

theorem editorDelChar_inv (st : EditorState) (h : cursorInv st) :
    cursorInv (editorDelChar st) := by
  obtain ⟨h1, h2, h3⟩ := h
  by_cases hcy : st.cy = st.rows.length
  · have hid : editorDelChar st = st := by unfold editorDelChar; simp [hcy]
    rw [hid]
    exact ⟨h1, h2, h3⟩
  · have hlt : st.cy < st.rows.length := by omega
    have hcx : st.cx ≤ (st.rows.getD st.cy default).chars.length := h2 hlt
    by_cases hx : st.cx = 0
    · by_cases hy : st.cy = 0
      · have hid : editorDelChar st = st := by unfold editorDelChar; simp [hx, hy]
        rw [hid]
        exact ⟨h1, h2, h3⟩
      · -- join branch
        have hAnd : st.cx = 0 ∧ ¬(st.cy = 0) := ⟨hx, hy⟩
        have hg : ¬((st.cy : Int) < 0 ∨ (st.cy : Int) ≥ (st.rows.length : Int)) := by
          omega
        have hnpos : ¬(st.cx > 0) := by omega
        have hchar : editorDelChar st
            = { st with
                rows := listEraseAt
                  (st.rows.set (st.cy - 1)
                    { chars := (st.rows.getD (st.cy - 1) default).chars
                        ++ (st.rows.getD st.cy default).chars,
                      render := renderOf ((st.rows.getD (st.cy - 1) default).chars
                        ++ (st.rows.getD st.cy default).chars) })
                  st.cy,
                dirty := st.dirty + 1 + 1,
                cx := (st.rows.getD (st.cy - 1) default).chars.length,
                cy := st.cy - 1 } := by
          simp only [editorDelChar, editorRowAppendString, editorDelRow, editorUpdateRow,
            hcy, hx, hy, hnpos, hg, true_and, and_true, not_false_eq_true, if_neg,
            if_pos, reduceIte, List.length_set, Int.toNat_natCast, gt_iff_lt,
            lt_self_iff_false]
        rw [hchar]
        have hlen : (listEraseAt
            (st.rows.set (st.cy - 1)
              { chars := (st.rows.getD (st.cy - 1) default).chars
                  ++ (st.rows.getD st.cy default).chars,
                render := renderOf ((st.rows.getD (st.cy - 1) default).chars
                  ++ (st.rows.getD st.cy default).chars) })
            st.cy).length = st.rows.length - 1 := by
          rw [listEraseAt_length _ _ (by simp [List.length_set]; omega), List.length_set]
        refine ⟨?_, fun hl => ?_, fun heq => ?_⟩
        · simp only [hlen]; omega
        · have hgd : (listEraseAt
              (st.rows.set (st.cy - 1)
                { chars := (st.rows.getD (st.cy - 1) default).chars
                    ++ (st.rows.getD st.cy default).chars,
                  render := renderOf ((st.rows.getD (st.cy - 1) default).chars
                    ++ (st.rows.getD st.cy default).chars) })
              st.cy).getD (st.cy - 1) default
              = { chars := (st.rows.getD (st.cy - 1) default).chars
                    ++ (st.rows.getD st.cy default).chars,
                  render := renderOf ((st.rows.getD (st.cy - 1) default).chars
                    ++ (st.rows.getD st.cy default).chars) } := by
            rw [listEraseAt_getD_lt _ _ _ _ (by omega)]
            exact set_getD_self _ _ _ _ (by omega)
          simp only [hgd, List.length_append]
          omega
        · simp only [hlen] at heq
          omega
    · -- in-row delete branch
      have hg : ¬((st.cx : Int) - 1 < 0
          ∨ (st.cx : Int) - 1 ≥ ((st.rows.getD st.cy default).chars.length : Int)) := by
        omega
      have htn : ((st.cx : Int) - 1).toNat = st.cx - 1 := by omega
      have hpos : st.cx > 0 := by omega
      have hchar : editorDelChar st
          = { st with
              rows := st.rows.set st.cy
                { chars := listEraseAt (st.rows.getD st.cy default).chars (st.cx - 1),
                  render := renderOf
                    (listEraseAt (st.rows.getD st.cy default).chars (st.cx - 1)) },
              dirty := st.dirty + 1, cx := st.cx - 1 } := by
        simp only [editorDelChar, editorRowDelChar, editorUpdateRow, hcy, hx, hpos, hg,
          htn, false_and, not_false_eq_true, if_neg, if_pos, reduceIte]
      rw [hchar]
      refine ⟨?_, fun hl => ?_, fun heq => ?_⟩
      · simp only [List.length_set]; omega
      · have := set_getD_self st.rows st.cy
          ({ chars := listEraseAt (st.rows.getD st.cy default).chars (st.cx - 1),
             render := renderOf (listEraseAt (st.rows.getD st.cy default).chars (st.cx - 1)) }
            : Erow) default hlt
        simp only [this]
        have := listEraseAt_length (st.rows.getD st.cy default).chars (st.cx - 1)
          (by omega)
        simp only [this]
        omega
      · simp only [List.length_set] at heq
        omega

/-- Counterexample to C2 as stated: the cursor invariant alone does not
mention the scroll offset, and Page-Up first sets `cy = rowoff`.  From the
invariant-satisfying state with an empty buffer, `cy = cx = 0` and a stale
`rowoff = 5` (1-row window), Page-Up leaves `cy = 4 > rows.length = 0`. -/
theorem cursor_invariant_counterexample :
    cursorInv { cx := 0, cy := 0, rx := 0, rowoff := 5, coloff := 0, screenrows := 1, screencols := 10, rows := [], dirty := 0 }
      ∧ ¬ cursorInv (editorProcessKeypress { cx := 0, cy := 0, rx := 0, rowoff := 5, coloff := 0, screenrows := 1, screencols := 10, rows := [], dirty := 0 } 1 Key.pageUp).st := by
  decide

/-- C2 (amended): starting from a state satisfying the cursor invariant
*and* whose scroll state is reconciled (`0 ≤ rowoff ≤ rows.length`, as
`editorScroll` establishes before every keypress) with a positive viewport
height, every keypress — arrow moves with end/start-of-line wrap, page
jumps, home/end, character insert, newline, backspace/delete dispatch —
preserves `0 ≤ cy ≤ rows.length`, `0 ≤ cx ≤ rows[cy].raw.length` for
`cy < rows.length`, and `cx = 0` on the virtual last line (the lower bounds
hold by the `Nat` typing of the model). -/
theorem cursor_invariant_amended (st : EditorState) (qt : Nat) (k : Key)
    (h : cursorInv st) (hro0 : 0 ≤ st.rowoff)
    (hro1 : st.rowoff ≤ (st.rows.length : Int)) (hsr : 1 ≤ st.screenrows) :
    cursorInv (editorProcessKeypress st qt k).st := by
  obtain ⟨m, hm⟩ : ∃ m, st.screenrows = m + 1 := ⟨st.screenrows - 1, by omega⟩
  cases k with
  | char ch =>
    simp only [editorProcessKeypress]
    split_ifs <;>
      first
        | exact editorInsertNewline_inv st h
        | exact editorDelChar_inv st h
        | exact h
        | exact editorInsertChar_inv st ch h
  | homeKey => exact ⟨h.1, fun _ => Nat.zero_le _, fun _ => rfl⟩
  | endKey =>
    simp only [editorProcessKeypress]
    split_ifs with hc
    · exact ⟨h.1, fun _ => le_refl _, fun heq => by dsimp only at heq; omega⟩
    · exact h
  | delKey => exact editorDelChar_inv _ (editorMoveCursor_inv st .arrowRight h.1)
  | pageUp =>
    show cursorInv ((fun s => editorMoveCursor s .arrowUp)^[st.screenrows]
      { st with cy := st.rowoff.toNat })
    rw [hm]
    exact iterate_moveCursor_inv .arrowUp m _ (by simp only; omega)
  | pageDown =>
    show cursorInv ((fun s => editorMoveCursor s .arrowDown)^[st.screenrows]
      { st with cy := (if (st.rowoff + st.screenrows - 1 : Int) > (st.rows.length : Int)
          then (st.rows.length : Int) else st.rowoff + st.screenrows - 1).toNat })
    rw [hm]
    refine iterate_moveCursor_inv .arrowDown m _ ?_
    simp only
    split_ifs <;> omega
  | arrowUp => exact editorMoveCursor_inv st .arrowUp h.1
  | arrowDown => exact editorMoveCursor_inv st .arrowDown h.1
  | arrowLeft => exact editorMoveCursor_inv st .arrowLeft h.1
  | arrowRight => exact editorMoveCursor_inv st .arrowRight h.1

/-- Witness for C2 (amended) at a concrete state: a Page-Down on a fresh
empty buffer with a 1-row window keeps the invariant. -/
theorem cursor_invariant_amended_witness :
    cursorInv (editorProcessKeypress (initEditor 3 10) 1 Key.pageDown).st :=
  cursor_invariant_amended (initEditor 3 10) 1 Key.pageDown (by decide) (by decide)
    (by decide) (by decide)

end Hexa
